import Mathlib

/-!
Verification development for the nPerlinNoise sampling core (`src/nPerlin.py`).

The Python source is shallowly embedded below.  Machine reals (numpy
float32/float64) are idealised as `ℚ`; the `astype(np.uint16)` cast in
`findBounds` is kept exact as a `% 65536` reduction of the floor.  The
collaborators that live outside `src/` (`NTuple`, `NPrng`, `findCorners`,
`maxLen` from `tools`, and `Warp` from `selectionTools`) are modelled from the
specification, as marked on each such definition.
-/

namespace NPerlin

/-- A Python coordinate argument for one axis: either a bare scalar or a
sequence of reals (`np.ravel` flattens either into a flat sequence). -/
abbrev PyCoord := ℚ ⊕ List ℚ

/-- The flat sequence a coordinate argument denotes: a scalar counts as a
length-1 sequence (`if not iterable(coords[d]): coords[d] = [coords[d]]`). -/
def toSeq : PyCoord → List ℚ
  | Sum.inl x => [x]
  | Sum.inr l => l

/-- Maximum of a list of naturals (numpy `max` over lengths), 0 on empty. -/
def listMax (l : List ℕ) : ℕ := l.foldr max 0

/-- Minimum of a nonempty list of naturals (numpy `min`); 0 on empty input,
which the source never produces. -/
def listMin : List ℕ → ℕ
  | [] => 0
  | a :: t => t.foldr min a

/-- Last element of a list with a fallback for the empty list (Python's
`l[-1]` on the lists the source indexes, which are nonempty). -/
def lastD {α : Type} : List α → α → α
  | [], d => d
  | a :: t, _ => lastD t a

/-- Modelled from the spec: `maxLen(coords, key=...)` from `tools` — the
highest element count amongst the per-axis coordinate inputs. -/
def maxLenM (coords : List PyCoord) : ℕ :=
  listMax (coords.map fun c => (toSeq c).length)

/-- Embedding of `np.repeat(c, k)`: each element repeated `k` times in
place. -/
def repeatEach (k : ℕ) : List ℚ → List ℚ
  | [] => []
  | a :: t => List.replicate k a ++ repeatEach k t

/-- One row of `NPerlin.formatCoords`: with `stretch, left =
divmod(maxLength, max(1, len(c)))`, the first `maxLength - left` slots are
`np.repeat(c, stretch)` and the remaining `left` slots repeat `c[-1]`. -/
def formatAxis (N : ℕ) (c : List ℚ) : List ℚ :=
  repeatEach (N / max 1 c.length) c ++ List.replicate (N % max 1 c.length) (lastD c 0)

/-- Embedding of `NPerlin.formatCoords`: align every axis to the maximum
length and take absolute values (`__coords.__abs__()`). -/
def formatCoords (coords : List PyCoord) : List (List ℚ) :=
  coords.map fun c => (formatAxis (maxLenM coords) (toSeq c)).map fun x => |x|

/-- The mutable configuration owned by an `NPerlin` instance: the validated
frequency/waveLength/warp tuples, the output range together with the stored
multiplier `__rangeMul`, the frequency-wavelength multiplier `fwm`, and the
seed held by the private `NPrng`. -/
structure NPerlinState where
  frequency : List ℕ
  waveLength : List ℚ
  warp : List (ℚ → ℚ)
  range : ℚ × ℚ
  rangeMul : ℚ
  fwm : ℕ
  seed : ℕ

/-- Modelled from the spec: `NTuple` indexing from `tools` — index access
beyond the declared length repeats the last declared value (broadcast). -/
def ntGet {α : Type} [Inhabited α] (l : List α) (i : ℕ) : α :=
  if h : i < l.length then l.get ⟨i, h⟩ else lastD l default

/-- Embedding of the `mFrequency` property: `frequency * fwm` elementwise,
read through broadcast indexing. -/
def mFreq (s : NPerlinState) (d : ℕ) : ℕ := ntGet s.frequency d * s.fwm

/-- Embedding of the `mWaveLength` property: `waveLength * fwm` elementwise,
read through broadcast indexing. -/
def mWaveL (s : NPerlinState) (d : ℕ) : ℚ := ntGet s.waveLength d * (s.fwm : ℚ)

/-- Embedding of the `amp` property as a tuple:
`NTuple(w / f for w, f in zip(self.mWaveLength, self.mFrequency))`; `zip`
truncates to the shorter of the two declared tuples. -/
def ampNT (s : NPerlinState) : List ℚ :=
  (s.waveLength.zip s.frequency).map fun p => p.1 * (s.fwm : ℚ) / ((p.2 : ℚ) * (s.fwm : ℚ))

/-- Broadcast read of `amp` (internodal spacing) at index `d`. -/
def amp (s : NPerlinState) (d : ℕ) : ℚ := ntGet (ampNT s) d

/-- Unitized coordinates inside `findBounds`:
`bCoords = fCoords[::-1] / [[a] for a in self.amp[:len(fCoords)]]` — note the
row reversal: internal row `d` holds original axis `D - 1 - d` divided by
`amp[d]`.  `fC d n` is entry `n` of row `d` of the formatted matrix. -/
def uCoord (s : NPerlinState) (D : ℕ) (fC : ℕ → ℕ → ℚ) (d n : ℕ) : ℚ :=
  fC (D - 1 - d) n / amp s d

/-- Embedding of `lowerIndex = np.floor(bCoords).astype(np.uint16)`: the
floor of the unitized coordinate reduced modulo 2^16. -/
def lowIdx (s : NPerlinState) (D : ℕ) (fC : ℕ → ℕ → ℚ) (d n : ℕ) : ℕ :=
  (⌊uCoord s D fC d n⌋).toNat % 65536

/-- Embedding of `bCoords -= lowerIndex`: fractional offset, the unitized
coordinate minus the truncated lower index (in internal reversed row
order). -/
def fracU (s : NPerlinState) (D : ℕ) (fC : ℕ → ℕ → ℚ) (d n : ℕ) : ℚ :=
  uCoord s D fC d n - (lowIdx s D fC d n : ℚ)

/-- The fractional-offset matrix as returned by `findBounds`
(`bCoords[::-1]`, rows re-reversed back to original axis order). -/
def retFrac (s : NPerlinState) (D : ℕ) (fC : ℕ → ℕ → ℚ) (d n : ℕ) : ℚ :=
  fracU s D fC (D - 1 - d) n

/-- The unitized coordinate attributed to original axis `d` after the
re-reversal, i.e. the value whose floor/fraction drive axis `d`'s blend. -/
def retU (s : NPerlinState) (D : ℕ) (fC : ℕ → ℕ → ℚ) (d n : ℕ) : ℚ :=
  uCoord s D fC (D - 1 - d) n

/-- Modelled from the spec: `findCorners(D)` from `tools` — the `2^D`
hypercube vertices in the fixed axis-major order in which bit `D - 1 - d` of
the vertex number `v` is the 0/1 offset of row `d`. -/
def cornerBit (D v d : ℕ) : ℕ := v / 2 ^ (D - 1 - d) % 2

/-- Embedding of the corner-index tensor of `findBounds`:
`bIndex = (lowerIndex + findCorners(...)).transpose(...) % mFrequency` —
entry for internal row `d`, vertex `v`, sample `n`. -/
def bIdx (s : NPerlinState) (D : ℕ) (fC : ℕ → ℕ → ℚ) (d v n : ℕ) : ℕ :=
  (lowIdx s D fC d n + cornerBit D v d) % mFreq s d

/-- Modelled from the spec: the random-grid provider is content-addressed —
the value fetched for an absolute multi-index is a pure function of the seed
and that index, regardless of the window requested around it.  `bSpace =
fab[tuple(bIndex)]` therefore reads the provider at the wrapped corner
index. -/
def cornerVal (prng : List ℕ → ℚ) (s : NPerlinState) (D : ℕ)
    (fC : ℕ → ℕ → ℚ) (v n : ℕ) : ℚ :=
  prng ((List.range D).map fun d => bIdx s D fC d v n)

/-- Embedding of `__interpolation` on one pair per new index:
`warp(coords) * (pairs[:,1] - pairs[:,0]) + pairs[:,0]` with blend weight
`w` already applied to the fractional offset. -/
def interpStep (w : ℚ) (vals : ℕ → ℚ) : ℕ → ℚ :=
  fun i => w * (vals (2 * i + 1) - vals (2 * i)) + vals (2 * i)

/-- The dimensional collapse of `bNoise`: fold the per-axis blend weights
over the corner-value buffer, halving it each step via `interpStep`. -/
def collapseSteps : List ℚ → (ℕ → ℚ) → ℕ → ℚ
  | [], vals => vals
  | w :: ws, vals => collapseSteps ws (interpStep w vals)

/-- The per-sample blend weights of `bNoise`: steps `0 .. D-2` use
`self.__warp[d](bCoords[:, d])`; the final step uses `self.__warp[-1]`
(the last declared warp, not the broadcast read) on `bCoords[:, -1]`. -/
def stepWeights (s : NPerlinState) (D : ℕ) (f : ℕ → ℚ) : List ℚ :=
  ((List.range (D - 1)).map fun d => ntGet s.warp d (f d)) ++
    [lastD s.warp default (f (D - 1))]

/-- Embedding of `bNoise` for sample `n`: collapse the `2^D` corner values
with the per-axis warped weights down to one raw noise value. -/
def bNoise (prng : List ℕ → ℚ) (s : NPerlinState) (D : ℕ)
    (fC : ℕ → ℕ → ℚ) (n : ℕ) : ℚ :=
  collapseSteps (stepWeights s D (fun d => retFrac s D fC d n))
    (fun v => cornerVal prng s D fC v n) 0

/-- Embedding of `applyRange`: `noise * self.__rangeMul + self.range[0]`. -/
def applyRange (s : NPerlinState) (x : ℚ) : ℚ := x * s.rangeMul + s.range.1

/-- One range-mapped output sample of `__call__` (after formatting). -/
def sampleAt (prng : List ℕ → ℚ) (s : NPerlinState) (D : ℕ)
    (fC : ℕ → ℕ → ℚ) (n : ℕ) : ℚ :=
  applyRange s (bNoise prng s D fC n)

/-- Concatenation of a list of lists (numpy flattening of the corner-index
tensor along vertices and samples, used for the min/max of `findFab`). -/
def catLists {α : Type} : List (List α) → List α
  | [] => []
  | a :: t => a ++ catLists t

/-- All wrapped corner indices of internal row `d` across the `2^D` vertices
and `N` samples — the entries `findFab` takes `min`/`max` over. -/
def cornerIdxList (s : NPerlinState) (D N : ℕ) (fC : ℕ → ℕ → ℚ) (d : ℕ) : List ℕ :=
  catLists ((List.range (2 ^ D)).map fun v =>
    (List.range N).map fun n => bIdx s D fC d v n)

/-- Embedding of the window offset of `findFab`: `bIndex.min((1, 2))`. -/
def fabOff (s : NPerlinState) (D N : ℕ) (fC : ℕ → ℕ → ℚ) (d : ℕ) : ℕ :=
  listMin (cornerIdxList s D N fC d)

/-- Embedding of the window shape of `findFab`:
`(bIndex.max((1,2)) - bIndex.min((1,2))) + 1` per axis. -/
def fabShape (s : NPerlinState) (D N : ℕ) (fC : ℕ → ℕ → ℚ) (d : ℕ) : ℕ :=
  listMax (cornerIdxList s D N fC d) - fabOff s D N fC d + 1

/-- Read the formatted coordinate list-of-rows as a total matrix. -/
def toMat (m : List (List ℚ)) (d n : ℕ) : ℚ := (m.getD d []).getD n 0

/-- Embedding of `NPerlin.__call__`: default the empty argument list to a
single scalar 0, format the coordinates, and produce one range-mapped noise
value per formatted sample.  `prng` maps the stored seed to the provider's
content-addressed value function. -/
def nPerlinCall (prng : ℕ → List ℕ → ℚ) (s : NPerlinState)
    (coords : List PyCoord) : List ℚ :=
  let coords' := match coords with
    | [] => [Sum.inl 0]
    | cs => cs
  (List.range (maxLenM coords')).map fun n =>
    sampleAt (prng s.seed) s coords'.length (toMat (formatCoords coords')) n

/-- State-passing form of `__call__`: the method body contains no assignment
to `self` (every step only reads the configuration), so the invocation
returns its samples and threads the configuration through unchanged. -/
def nPerlinCallM (prng : ℕ → List ℕ → ℚ) (s : NPerlinState)
    (coords : List PyCoord) : List ℚ × NPerlinState :=
  (nPerlinCall prng s coords, s)

/-- A Python value as seen by the validators: an `int`, a `float`, or some
non-numeric object. -/
inductive PyNum : Type
  | i (n : ℤ)
  | f (q : ℚ)
  | other

/-- The numeric value a `PyNum` compares as (0 for non-numeric objects,
whose comparisons the validators never reach affirmatively). -/
def PyNum.val : PyNum → ℚ
  | .i n => (n : ℚ)
  | .f q => q
  | .other => 0

/-- Python's `isinstance(x, int)`. -/
def PyNum.isInt : PyNum → Bool
  | .i _ => true
  | _ => false

/-- Python's `isinstance(x, (int, float))`. -/
def PyNum.isReal : PyNum → Bool
  | .i _ => true
  | .f _ => true
  | .other => false

/-- A scalar-or-tuple argument as passed to `setFrequency`/`setWaveLength`. -/
abbrev PyArg := PyNum ⊕ List PyNum

/-- Embedding of `__getFrequency`: wrap a bare `int` into a 1-tuple, then
require a tuple whose entries are all `int` and `> 1`; `None` models the
raised `AssertionError`. -/
def getFrequency : PyArg → Option (List ℕ)
  | Sum.inl (.i n) => if 1 < n then some [n.toNat] else none
  | Sum.inl _ => none
  | Sum.inr l =>
      if l.all fun x => x.isInt && decide (1 < x.val) then
        some (l.map fun x => ⌊x.val⌋.toNat)
      else none

/-- Embedding of `__getWaveLength`: wrap a bare number into a 1-tuple, then
require a tuple of reals all `> 0`. -/
def getWaveLength : PyArg → Option (List ℚ)
  | Sum.inl x => if x.isReal && decide (0 < x.val) then some [x.val] else none
  | Sum.inr l =>
      if l.all fun x => x.isReal && decide (0 < x.val) then
        some (l.map PyNum.val)
      else none

/-- Embedding of `__getRange`: require a 2-tuple of reals and return the
range together with the stored multiplier `_range[1] - _range[0]`. -/
def getRange (r : List PyNum) : Option ((ℚ × ℚ) × ℚ) :=
  if r.length = 2 && (r.all PyNum.isReal) then
    some (((r.getD 0 .other).val, (r.getD 1 .other).val),
      (r.getD 1 .other).val - (r.getD 0 .other).val)
  else none

/-- Embedding of `setSeed` (delegates to the provider's seed). -/
def setSeedS (s : NPerlinState) (seed : ℕ) : NPerlinState := { s with seed := seed }

/-- Embedding of `setFrequency`: validate, then replace only the frequency. -/
def setFrequencyS (s : NPerlinState) (a : PyArg) : Option NPerlinState :=
  (getFrequency a).map fun f => { s with frequency := f }

/-- Embedding of `setWaveLength`: validate, then replace only the
waveLength. -/
def setWaveLengthS (s : NPerlinState) (a : PyArg) : Option NPerlinState :=
  (getWaveLength a).map fun w => { s with waveLength := w }

/-- Embedding of `setWarp` (`__getWarp` only checks the `Warp` type, which
the embedding's function type already guarantees): replace only the warp. -/
def setWarpS (s : NPerlinState) (w : List (ℚ → ℚ)) : NPerlinState :=
  { s with warp := w }

/-- Embedding of `setRange`: validate, then replace the range and the stored
multiplier together (`self.__range, self.__rangeMul = self.__getRange(...)`). -/
def setRangeS (s : NPerlinState) (r : List PyNum) : Option NPerlinState :=
  (getRange r).map fun p => { s with range := p.1, rangeMul := p.2 }

/-- Embedding of `__init__` after the `None` defaults are substituted: run
the three validators and assemble the configuration. -/
def mkNPerlin (seed : ℕ) (fwm : ℕ) (fIn wIn : PyArg) (warpIn : List (ℚ → ℚ))
    (rIn : List PyNum) : Option NPerlinState := do
  let f ← getFrequency fIn
  let w ← getWaveLength wIn
  let r ← getRange rIn
  pure ⟨f, w, warpIn, r.1, r.2, fwm, seed⟩

/-- Well-formedness of a configuration that passed the eager validators:
nonempty frequency tuple of integers > 1, nonempty positive waveLength
tuple, nonempty warp tuple, and `fwm ≥ 1` (per the spec's data model). -/
def NPerlinState.wf (s : NPerlinState) : Prop :=
  s.frequency ≠ [] ∧ (∀ f ∈ s.frequency, 1 < f) ∧
  s.waveLength ≠ [] ∧ (∀ w ∈ s.waveLength, 0 < w) ∧
  s.warp ≠ [] ∧ 1 ≤ s.fwm

lemma lastD_mem {α : Type} : ∀ (l : List α) (d : α), l ≠ [] → lastD l d ∈ l
  | [], _, h => absurd rfl h
  | a :: t, d, _ => by
      rw [lastD]
      cases t with
      | nil => simp [lastD]
      | cons b t2 =>
          exact List.mem_cons_of_mem _ (lastD_mem (b :: t2) a (by simp))

lemma ntGet_mem {α : Type} [Inhabited α] {l : List α} (h : l ≠ []) (i : ℕ) :
    ntGet l i ∈ l := by
  unfold ntGet
  split
  · exact List.get_mem _ _ _
  · exact lastD_mem l default h

lemma foldrMin_le (t : List ℕ) (a : ℕ) :
    t.foldr min a ≤ a ∧ ∀ x ∈ t, t.foldr min a ≤ x := by
  induction t with
  | nil => simp
  | cons b t ih =>
      refine ⟨le_trans (min_le_right _ _) ih.1, ?_⟩
      intro x hx
      rcases List.mem_cons.mp hx with h | h
      · exact h ▸ min_le_left _ _
      · exact le_trans (min_le_right _ _) (ih.2 x h)

lemma foldrMin_mem (t : List ℕ) (a : ℕ) :
    t.foldr min a = a ∨ t.foldr min a ∈ t := by
  induction t with
  | nil => exact Or.inl rfl
  | cons b t ih =>
      rcases min_choice b (t.foldr min a) with h | h
      · exact Or.inr (by rw [List.foldr_cons, h]; exact List.mem_cons_self _ _)
      · rcases ih with h2 | h2
        · exact Or.inl (by rw [List.foldr_cons, h, h2])
        · exact Or.inr (by rw [List.foldr_cons, h]; exact List.mem_cons_of_mem _ h2)

lemma listMin_le {l : List ℕ} {x : ℕ} (hx : x ∈ l) : listMin l ≤ x := by
  cases l with
  | nil => cases hx
  | cons a t =>
      rcases List.mem_cons.mp hx with h | h
      · exact h ▸ (foldrMin_le t a).1
      · exact (foldrMin_le t a).2 x h

lemma listMin_mem {l : List ℕ} (h : l ≠ []) : listMin l ∈ l := by
  cases l with
  | nil => exact absurd rfl h
  | cons a t =>
      show t.foldr min a ∈ a :: t
      rcases foldrMin_mem t a with h2 | h2
      · rw [h2]; exact List.mem_cons_self _ _
      · exact List.mem_cons_of_mem _ h2

lemma le_listMax {l : List ℕ} {x : ℕ} (hx : x ∈ l) : x ≤ listMax l := by
  induction l with
  | nil => cases hx
  | cons a t ih =>
      rcases List.mem_cons.mp hx with h | h
      · exact h ▸ le_max_left _ _
      · exact le_trans (ih h) (le_max_right _ _)

lemma listMax_mem {l : List ℕ} (h : l ≠ []) : listMax l ∈ l := by
  induction l with
  | nil => exact absurd rfl h
  | cons a t ih =>
      cases t with
      | nil => simp [listMax]
      | cons b t2 =>
          have hx : listMax (a :: b :: t2) = max a (listMax (b :: t2)) := rfl
          rcases max_choice a (listMax (b :: t2)) with h2 | h2
          · rw [hx, h2]; exact List.mem_cons_self _ _
          · rw [hx, h2]; exact List.mem_cons_of_mem _ (ih (by simp))

lemma mem_catLists {α : Type} {x : α} :
    ∀ {ls : List (List α)}, x ∈ catLists ls → ∃ l ∈ ls, x ∈ l := by
  intro ls
  induction ls with
  | nil => intro h; cases h
  | cons a t ih =>
      intro h
      rcases List.mem_append.mp h with h2 | h2
      · exact ⟨a, List.mem_cons_self _ _, h2⟩
      · obtain ⟨l, hl, hxl⟩ := ih h2
        exact ⟨l, List.mem_cons_of_mem _ hl, hxl⟩

lemma catLists_mem {α : Type} {x : α} {l : List α} {ls : List (List α)}
    (hl : l ∈ ls) (hx : x ∈ l) : x ∈ catLists ls := by
  induction ls with
  | nil => cases hl
  | cons a t ih =>
      rcases List.mem_cons.mp hl with h | h
      · exact List.mem_append.mpr (Or.inl (h ▸ hx))
      · exact List.mem_append.mpr (Or.inr (ih h))

lemma repeatEach_length (k : ℕ) : ∀ c : List ℚ, (repeatEach k c).length = k * c.length
  | [] => by simp [repeatEach]
  | a :: t => by
      rw [repeatEach, List.length_append, List.length_replicate, repeatEach_length k t,
        List.length_cons]
      ring

lemma mem_repeatEach {k : ℕ} {x : ℚ} : ∀ {c : List ℚ}, x ∈ repeatEach k c → x ∈ c := by
  intro c
  induction c with
  | nil => intro h; cases h
  | cons a t ih =>
      intro h
      rcases List.mem_append.mp h with h2 | h2
      · exact List.mem_cons.mpr (Or.inl (List.eq_of_mem_replicate h2))
      · exact List.mem_cons_of_mem _ (ih h2)

lemma mem_formatAxis {N : ℕ} {c : List ℚ} (hc : c ≠ []) {x : ℚ}
    (hx : x ∈ formatAxis N c) : x ∈ c := by
  rcases List.mem_append.mp hx with h | h
  · exact mem_repeatEach h
  · exact (List.eq_of_mem_replicate h) ▸ lastD_mem c 0 hc

lemma formatAxis_length {N : ℕ} {c : List ℚ} (hc : c ≠ []) :
    (formatAxis N c).length = N := by
  have hL : max 1 c.length = c.length := by
    have : 1 ≤ c.length := List.length_pos.mpr hc
    omega
  rw [formatAxis, List.length_append, List.length_replicate, repeatEach_length, hL]
  have h2 : c.length * (N / c.length) + N % c.length = N := Nat.div_add_mod N c.length
  have h3 : N / c.length * c.length = c.length * (N / c.length) := Nat.mul_comm _ _
  omega

lemma interpStep_mem_Icc {w : ℚ} (hw : 0 ≤ w ∧ w ≤ 1) {vals : ℕ → ℚ}
    (hv : ∀ i, 0 ≤ vals i ∧ vals i ≤ 1) (i : ℕ) :
    0 ≤ interpStep w vals i ∧ interpStep w vals i ≤ 1 := by
  obtain ⟨hw0, hw1⟩ := hw
  obtain ⟨ha0, ha1⟩ := hv (2 * i)
  obtain ⟨hb0, hb1⟩ := hv (2 * i + 1)
  unfold interpStep
  constructor <;> nlinarith

lemma collapseSteps_mem_Icc (ws : List ℚ) (vals : ℕ → ℚ)
    (hw : ∀ w ∈ ws, 0 ≤ w ∧ w ≤ 1) (hv : ∀ i, 0 ≤ vals i ∧ vals i ≤ 1) (i : ℕ) :
    0 ≤ collapseSteps ws vals i ∧ collapseSteps ws vals i ≤ 1 := by
  induction ws generalizing vals i with
  | nil => exact hv i
  | cons w ws ih =>
      exact ih (interpStep w vals)
        (fun x hx => hw x (List.mem_cons_of_mem _ hx))
        (fun j => interpStep_mem_Icc (hw w (List.mem_cons_self _ _)) hv j) i

lemma collapseSteps_allZero (ws : List ℚ) (vals : ℕ → ℚ)
    (hw : ∀ w ∈ ws, w = 0) : collapseSteps ws vals 0 = vals 0 := by
  induction ws generalizing vals with
  | nil => rfl
  | cons w ws ih =>
      rw [collapseSteps, ih (interpStep w vals)
        (fun x hx => hw x (List.mem_cons_of_mem _ hx))]
      have hw0 : w = 0 := hw w (List.mem_cons_self _ _)
      simp [interpStep, hw0]

lemma lowIdx_of_small {s : NPerlinState} {D : ℕ} {fC : ℕ → ℕ → ℚ} {d n : ℕ}
    (h0 : 0 ≤ uCoord s D fC d n) (h1 : uCoord s D fC d n < 65536) :
    (lowIdx s D fC d n : ℚ) = (⌊uCoord s D fC d n⌋ : ℚ) := by
  have hf0 : 0 ≤ ⌊uCoord s D fC d n⌋ := Int.floor_nonneg.mpr h0
  have hfu : ⌊uCoord s D fC d n⌋ < 65536 := Int.floor_lt.mpr (by exact_mod_cast h1)
  have ht : (⌊uCoord s D fC d n⌋).toNat < 65536 := by omega
  rw [lowIdx, Nat.mod_eq_of_lt ht]
  exact_mod_cast congrArg (fun z : ℤ => (z : ℚ)) (Int.toNat_of_nonneg hf0)

lemma fracU_mem_Ico {s : NPerlinState} {D : ℕ} {fC : ℕ → ℕ → ℚ} {d n : ℕ}
    (h0 : 0 ≤ uCoord s D fC d n) (h1 : uCoord s D fC d n < 65536) :
    0 ≤ fracU s D fC d n ∧ fracU s D fC d n < 1 := by
  rw [fracU, lowIdx_of_small h0 h1]
  have h2 := Int.fract_nonneg (uCoord s D fC d n)
  have h3 := Int.fract_lt_one (uCoord s D fC d n)
  simp only [Int.fract] at h2 h3
  exact ⟨h2, h3⟩

lemma mFreq_pos {s : NPerlinState} (hs : s.wf) (d : ℕ) : 0 < mFreq s d := by
  obtain ⟨hf, hf1, _, _, _, hfwm⟩ := hs
  have : ntGet s.frequency d ∈ s.frequency := ntGet_mem hf d
  have := hf1 _ this
  rw [mFreq]
  exact Nat.mul_pos (by omega) (by omega)

lemma amp_pos {s : NPerlinState} (hs : s.wf) (d : ℕ) : 0 < amp s d := by
  obtain ⟨hf, hf1, hw, hw1, _, hfwm⟩ := hs
  have hne : ampNT s ≠ [] := by
    rw [ampNT]
    simp only [ne_eq, List.map_eq_nil_iff, List.zip_eq_nil_iff]
    push_neg
    exact ⟨hw, hf⟩
  set x := ntGet (ampNT s) d with hxdef
  have hx : x ∈ ampNT s := ntGet_mem hne d
  rw [ampNT] at hx
  obtain ⟨p, hp, hpe⟩ := List.mem_map.mp hx
  obtain ⟨hpw, hpf⟩ := List.of_mem_zip hp
  show (0 : ℚ) < x
  rw [← hpe]
  have h1 : (0 : ℚ) < p.1 := hw1 _ hpw
  have h2 : (1 : ℕ) < p.2 := hf1 _ hpf
  have hq : (0 : ℚ) < (s.fwm : ℚ) := by
    exact_mod_cast Nat.lt_of_lt_of_le Nat.zero_lt_one hfwm
  have hq2 : (0 : ℚ) < (p.2 : ℚ) := by
    have : (0 : ℕ) < p.2 := by omega
    exact_mod_cast this
  positivity

lemma getRange_spec {r : List PyNum} {p : (ℚ × ℚ) × ℚ} (h : getRange r = some p) :
    p.2 = p.1.2 - p.1.1 := by
  rw [getRange] at h
  split at h
  · injection h with h
    rw [← h]
  · cases h

lemma mem_cornerIdxList_iff {s : NPerlinState} {D N : ℕ} {fC : ℕ → ℕ → ℚ}
    {d x : ℕ} :
    x ∈ cornerIdxList s D N fC d ↔ ∃ v < 2 ^ D, ∃ n < N, bIdx s D fC d v n = x := by
  rw [cornerIdxList]
  constructor
  · intro h
    obtain ⟨l, hl, hx⟩ := mem_catLists h
    obtain ⟨v, hv, rfl⟩ := List.mem_map.mp hl
    obtain ⟨n, hn, hxe⟩ := List.mem_map.mp hx
    exact ⟨v, List.mem_range.mp hv, n, List.mem_range.mp hn, hxe⟩
  · rintro ⟨v, hv, n, hn, rfl⟩
    exact catLists_mem (List.mem_map.mpr ⟨v, List.mem_range.mpr hv, rfl⟩)
      (List.mem_map.mpr ⟨n, List.mem_range.mpr hn, rfl⟩)

/-- C1: sampling is pure — `__call__` mutates no configuration state, and a
second invocation of `nPerlinCallM` with the same coordinates on the state
returned by the first produces identical output. -/
theorem c1_sampling_deterministic_pure (prng : ℕ → List ℕ → ℚ)
    (s : NPerlinState) (coords : List PyCoord) :
    (nPerlinCallM prng s coords).2 = s ∧
    (nPerlinCallM prng ((nPerlinCallM prng s coords).2) coords).1 =
      (nPerlinCallM prng s coords).1 :=
  ⟨rfl, rfl⟩

/-- C9: construction and `setRange` establish `rangeMul = range[1] - range[0]`;
`setSeed`, `setFrequency`, `setWaveLength` and `setWarp` leave both the stored
range and the multiplier unchanged (as does sampling, which threads the state
through untouched); under the invariant, `applyRange` is the affine map
`lo + raw * (hi - lo)`. -/
theorem c9_range_multiplier_invariant :
    (∀ seed fwm fIn wIn warpIn rIn s,
      mkNPerlin seed fwm fIn wIn warpIn rIn = some s →
      s.rangeMul = s.range.2 - s.range.1) ∧
    (∀ s r s2, setRangeS s r = some s2 → s2.rangeMul = s2.range.2 - s2.range.1) ∧
    (∀ s a s2, setFrequencyS s a = some s2 →
      s2.range = s.range ∧ s2.rangeMul = s.rangeMul) ∧
    (∀ s a s2, setWaveLengthS s a = some s2 →
      s2.range = s.range ∧ s2.rangeMul = s.rangeMul) ∧
    (∀ s w, (setWarpS s w).range = s.range ∧ (setWarpS s w).rangeMul = s.rangeMul) ∧
    (∀ s k, (setSeedS s k).range = s.range ∧ (setSeedS s k).rangeMul = s.rangeMul) ∧
    (∀ prng s coords, ((nPerlinCallM prng s coords).2).range = s.range ∧
      ((nPerlinCallM prng s coords).2).rangeMul = s.rangeMul) ∧
    (∀ s x, s.rangeMul = s.range.2 - s.range.1 →
      applyRange s x = s.range.1 + x * (s.range.2 - s.range.1)) := by
  refine ⟨?_, ?_, ?_, ?_, ?_, ?_, ?_, ?_⟩
  · intro seed fwm fIn wIn warpIn rIn s h
    rw [mkNPerlin] at h
    simp only [bind, Option.bind_eq_some, pure] at h
    obtain ⟨f, hf, w, hw, r, hr, hs⟩ := h
    have := getRange_spec hr
    injection hs with hs
    rw [← hs]
    exact this
  · intro s r s2 h
    rw [setRangeS] at h
    obtain ⟨p, hp, hs2⟩ := Option.map_eq_some'.mp h
    have := getRange_spec hp
    rw [← hs2]
    exact this
  · intro s a s2 h
    rw [setFrequencyS] at h
    obtain ⟨f, hf, hs2⟩ := Option.map_eq_some'.mp h
    rw [← hs2]
    exact ⟨rfl, rfl⟩
  · intro s a s2 h
    rw [setWaveLengthS] at h
    obtain ⟨w, hw, hs2⟩ := Option.map_eq_some'.mp h
    rw [← hs2]
    exact ⟨rfl, rfl⟩
  · intro s w
    exact ⟨rfl, rfl⟩
  · intro s k
    exact ⟨rfl, rfl⟩
  · intro prng s coords
    exact ⟨rfl, rfl⟩
  · intro s x h
    rw [applyRange, h]
    ring

/-- Closed witness for C9 at a concrete configuration and a concrete
`setRange` call. -/
theorem c9_range_multiplier_invariant_witness :
    (∀ s2, setRangeS ⟨[2], [1], [fun t => t], (0, 1), 1, 1, 0⟩
        [PyNum.i 2, PyNum.i 7] = some s2 →
      s2.rangeMul = s2.range.2 - s2.range.1) ∧
    applyRange ⟨[2], [1], [fun t => t], (0, 1), 1, 1, 0⟩ (1 / 2) =
      (0 : ℚ) + 1 / 2 * (1 - 0) := by
  constructor
  · intro s2 h
    exact c9_range_multiplier_invariant.2.1 _ _ _ h
  · exact c9_range_multiplier_invariant.2.2.2.2.2.2.2
      ⟨[2], [1], [fun t => t], (0, 1), 1, 1, 0⟩ (1 / 2) (by norm_num)

/-- C10: the lower lattice index is the floor of the unitized coordinate
reduced modulo 2^16 (before the modulo-effectiveFrequency wrap), so whenever
the unitized coordinate reaches 2^16 the fractional offset — the unitized
coordinate minus that truncated index — is at least 1 and differs from the
distance to the true floor. -/
theorem c10_uint16_truncated_lower_index (s : NPerlinState) (D : ℕ)
    (fC : ℕ → ℕ → ℚ) (d n : ℕ) (h : 65536 ≤ retU s D fC d n) :
    lowIdx s D fC (D - 1 - d) n = (⌊retU s D fC d n⌋).toNat % 65536 ∧
    (∀ v, bIdx s D fC (D - 1 - d) v n =
      ((⌊retU s D fC d n⌋).toNat % 65536 + cornerBit D v (D - 1 - d)) %
        mFreq s (D - 1 - d)) ∧
    retFrac s D fC d n =
      retU s D fC d n - ((⌊retU s D fC d n⌋).toNat % 65536 : ℕ) ∧
    1 ≤ retFrac s D fC d n ∧
    retFrac s D fC d n ≠ retU s D fC d n - (⌊retU s D fC d n⌋ : ℚ) := by
  have hlow : lowIdx s D fC (D - 1 - d) n = (⌊retU s D fC d n⌋).toNat % 65536 := rfl
  have hlt : lowIdx s D fC (D - 1 - d) n < 65536 := by
    rw [hlow]; exact Nat.mod_lt _ (by norm_num)
  have hfr : retFrac s D fC d n =
      retU s D fC d n - (lowIdx s D fC (D - 1 - d) n : ℚ) := rfl
  have hcast : ((lowIdx s D fC (D - 1 - d) n : ℕ) : ℚ) ≤ 65535 := by
    exact_mod_cast Nat.le_of_lt_succ hlt
  have h1 : 1 ≤ retFrac s D fC d n := by rw [hfr]; linarith
  refine ⟨hlow, fun v => rfl, by rw [hfr, hlow], h1, ?_⟩
  have h2 := Int.fract_lt_one (retU s D fC d n)
  simp only [Int.fract] at h2
  intro hcontra
  rw [hcontra] at h1
  linarith

/-- Closed witness for C10: a unitized coordinate of exactly 2^16 (coordinate
32768 with internodal spacing 1/2) keeps a fractional offset of 65536. -/
theorem c10_uint16_truncated_lower_index_witness :
    65536 ≤ retU ⟨[2], [1], [fun t => t], (0, 1), 1, 1, 0⟩ 1
      (fun _ _ => 32768) 0 0 ∧
    1 ≤ retFrac ⟨[2], [1], [fun t => t], (0, 1), 1, 1, 0⟩ 1
      (fun _ _ => 32768) 0 0 := by
  have h : 65536 ≤ retU ⟨[2], [1], [fun t => t], (0, 1), 1, 1, 0⟩ 1
      (fun _ _ => 32768) 0 0 := by
    norm_num [retU, uCoord, amp, ampNT, ntGet, List.zip]
  exact ⟨h, (c10_uint16_truncated_lower_index _ 1 _ 0 0 h).2.2.2.1⟩

/-- C7: the window `findFab` requests covers exactly the wrapped corner
indices — its offset is their minimum, its far edge their maximum plus one,
both attained — and because the indices are wrapped modulo the effective
frequency before the min/max, the per-axis extent never exceeds the
effective frequency. -/
theorem c7_fab_window_minimal_and_bounded (s : NPerlinState) (hs : s.wf)
    (D N : ℕ) (hN : 1 ≤ N) (fC : ℕ → ℕ → ℚ) (d : ℕ) :
    (∀ v < 2 ^ D, ∀ n < N,
      fabOff s D N fC d ≤ bIdx s D fC d v n ∧
      bIdx s D fC d v n < fabOff s D N fC d + fabShape s D N fC d) ∧
    (∃ v < 2 ^ D, ∃ n < N, bIdx s D fC d v n = fabOff s D N fC d) ∧
    (∃ v < 2 ^ D, ∃ n < N,
      bIdx s D fC d v n + 1 = fabOff s D N fC d + fabShape s D N fC d) ∧
    fabShape s D N fC d ≤ mFreq s d := by
  have hne : cornerIdxList s D N fC d ≠ [] := by
    intro hemp
    have : bIdx s D fC d 0 0 ∈ cornerIdxList s D N fC d :=
      mem_cornerIdxList_iff.mpr ⟨0, Nat.pos_pow_of_pos D (by norm_num), 0, hN, rfl⟩
    rw [hemp] at this
    cases this
  have hminmem := listMin_mem hne
  have hmaxmem := listMax_mem hne
  have hminmax : listMin (cornerIdxList s D N fC d) ≤
      listMax (cornerIdxList s D N fC d) := le_listMax hminmem
  have hbound : ∀ x ∈ cornerIdxList s D N fC d, x < mFreq s d := by
    intro x hx
    obtain ⟨v, hv, n, hn, rfl⟩ := mem_cornerIdxList_iff.mp hx
    exact Nat.mod_lt _ (mFreq_pos hs d)
  refine ⟨?_, ?_, ?_, ?_⟩
  · intro v hv n hn
    have hmem : bIdx s D fC d v n ∈ cornerIdxList s D N fC d :=
      mem_cornerIdxList_iff.mpr ⟨v, hv, n, hn, rfl⟩
    have h1 := listMin_le hmem
    have h2 := le_listMax hmem
    rw [fabOff, fabShape, fabOff]
    omega
  · obtain ⟨v, hv, n, hn, he⟩ := mem_cornerIdxList_iff.mp hminmem
    exact ⟨v, hv, n, hn, he⟩
  · obtain ⟨v, hv, n, hn, he⟩ := mem_cornerIdxList_iff.mp hmaxmem
    refine ⟨v, hv, n, hn, ?_⟩
    rw [he, fabShape, fabOff]
    omega
  · have := hbound _ hmaxmem
    rw [fabShape, fabOff]
    omega

/-- Closed witness for C7 at a concrete 1-axis configuration with one
sample. -/
theorem c7_fab_window_minimal_and_bounded_witness :
    fabShape ⟨[2], [1], [fun t => t], (0, 1), 1, 1, 0⟩ 1 1 (fun _ _ => 0) 0 ≤
      mFreq ⟨[2], [1], [fun t => t], (0, 1), 1, 1, 0⟩ 0 :=
  (c7_fab_window_minimal_and_bounded ⟨[2], [1], [fun t => t], (0, 1), 1, 1, 0⟩
    ⟨by simp, by decide, by simp, by decide, by simp, by decide⟩
    1 1 (by norm_num) (fun _ _ => 0) 0).2.2.2

/-- A concrete heterogeneous configuration: frequency (2, 4), waveLength
(1, 1) — internodal spacings 1/2 and 1/4 — identity warp, range (0, 1). -/
def sHet : NPerlinState := ⟨[2, 4], [1, 1], [fun t => t], (0, 1), 1, 1, 0⟩

/-- Concrete 2-axis single-sample coordinates on the lattice node (1, 1) as
the spec names it: axis 0 at `1 * amp[0] = 1/2`, axis 1 at
`1 * amp[1] = 1/4`. -/
def fHet : ℕ → ℕ → ℚ := fun d _ => if d = 0 then 1 / 2 else 1 / 4

/-- A concrete content-addressed provider with values in [0, 1). -/
def prngHet : List ℕ → ℚ := fun l =>
  if l = [1, 1] then 1 / 2 else if l = [1, 2] then 1 / 4 else 0

lemma sHet_amp0 : amp sHet 0 = 1 / 2 := by
  norm_num [amp, ampNT, sHet, ntGet, List.zip]

lemma sHet_amp1 : amp sHet 1 = 1 / 4 := by
  norm_num [amp, ampNT, sHet, ntGet, List.zip]

lemma sHet_mf0 : mFreq sHet 0 = 2 := by decide

lemma sHet_mf1 : mFreq sHet 1 = 4 := by decide

lemma fHet_u0 : uCoord sHet 2 fHet 0 0 = 1 / 2 := by
  show fHet 1 0 / amp sHet 0 = 1 / 2
  rw [sHet_amp0]
  norm_num [fHet]

lemma fHet_u1 : uCoord sHet 2 fHet 1 0 = 2 := by
  show fHet 0 0 / amp sHet 1 = 2
  rw [sHet_amp1]
  norm_num [fHet]

lemma fHet_low0 : lowIdx sHet 2 fHet 0 0 = 0 := by
  rw [lowIdx, fHet_u0]
  norm_num

lemma fHet_low1 : lowIdx sHet 2 fHet 1 0 = 2 := by
  rw [lowIdx, fHet_u1]
  norm_num
  decide

lemma fHet_ret0 : retFrac sHet 2 fHet 0 0 = 0 := by
  show fracU sHet 2 fHet 1 0 = 0
  rw [fracU, fHet_u1, fHet_low1]
  norm_num

lemma fHet_ret1 : retFrac sHet 2 fHet 1 0 = 1 / 2 := by
  show fracU sHet 2 fHet 0 0 = 1 / 2
  rw [fracU, fHet_u0, fHet_low0]
  norm_num

lemma fHet_corner0 : cornerVal prngHet sHet 2 fHet 0 0 = 0 := by
  rw [cornerVal]
  norm_num [List.range_succ, bIdx, cornerBit, fHet_low0, fHet_low1,
    sHet_mf0, sHet_mf1, prngHet]

lemma fHet_corner2 : cornerVal prngHet sHet 2 fHet 2 0 = 1 / 4 := by
  rw [cornerVal]
  norm_num [List.range_succ, bIdx, cornerBit, fHet_low0, fHet_low1,
    sHet_mf0, sHet_mf1, prngHet]

lemma fHet_weights :
    stepWeights sHet 2 (fun d => retFrac sHet 2 fHet d 0) = [0, 1 / 2] := by
  rw [stepWeights]
  norm_num [List.range_succ, ntGet, lastD, sHet]
  exact ⟨fHet_ret0, fHet_ret1⟩

lemma fHet_sample : sampleAt prngHet sHet 2 fHet 0 = 1 / 8 := by
  rw [sampleAt, bNoise, fHet_weights]
  simp only [collapseSteps, interpStep]
  rw [fHet_corner0, fHet_corner2]
  norm_num [applyRange, sHet]

lemma prngHet_node : applyRange sHet (prngHet [1 % mFreq sHet 0, 1 % mFreq sHet 1]) = 1 / 2 := by
  rw [sHet_mf0, sHet_mf1]
  norm_num [applyRange, prngHet, sHet]

/-- C3 counterexample: on the configuration `sHet` the point `(1/2, 1/4)` is
an exact lattice node in the claim's sense (axis `d` an integer multiple of
`amp[d]`) and the identity warp fixes 0, yet the sample is `1/8` — a strict
blend — while the range-mapped provider value at the wrapped node `(1, 1)`
is `1/2`: `findBounds` unitizes axis `d` by the mirrored spacing
`amp[D-1-d]`, so the claim fails as stated. -/
theorem c3_corner_exactness_counterexample :
    (∀ d < 2, fHet d 0 = 1 * amp sHet d) ∧
    (∀ w ∈ sHet.warp, w 0 = 0) ∧
    sampleAt prngHet sHet 2 fHet 0 = 1 / 8 ∧
    applyRange sHet (prngHet [1 % mFreq sHet 0, 1 % mFreq sHet 1]) = 1 / 2 ∧
    sampleAt prngHet sHet 2 fHet 0 ≠
      applyRange sHet (prngHet [1 % mFreq sHet 0, 1 % mFreq sHet 1]) := by
  refine ⟨?_, ?_, fHet_sample, prngHet_node, ?_⟩
  · intro d hd
    interval_cases d
    · rw [sHet_amp0]; norm_num [fHet]
    · rw [sHet_amp1]; norm_num [fHet]
  · intro w hw
    rw [sHet] at hw
    simp only [List.mem_singleton] at hw
    subst hw
    rfl
  · rw [fHet_sample, prngHet_node]
    norm_num

/-- C3 (amended): because `findBounds` reverses the coordinate rows, a point
whose coordinate on original axis `D-1-j` is `k j` times `amp[j]` (the
mirrored axis's internodal spacing), with every multiplier below 2^16, is
sampled exactly: when every warp fixes 0, the output is the range-mapped
provider value at the wrapped node `(k j % mFreq j)_j`. -/
theorem c3_corner_exactness_amended (prng : List ℕ → ℚ) (s : NPerlinState)
    (hs : s.wf) (D : ℕ) (hD : 1 ≤ D) (fC : ℕ → ℕ → ℚ) (n : ℕ) (k : ℕ → ℕ)
    (hk : ∀ j < D, fC (D - 1 - j) n = (k j : ℚ) * amp s j)
    (hksm : ∀ j < D, k j < 65536)
    (hw : ∀ w ∈ s.warp, w 0 = 0) :
    sampleAt prng s D fC n =
      applyRange s (prng ((List.range D).map fun j => k j % mFreq s j)) := by
  have hu : ∀ j < D, uCoord s D fC j n = (k j : ℚ) := by
    intro j hj
    rw [uCoord, hk j hj]
    exact mul_div_cancel_right₀ _ (ne_of_gt (amp_pos hs j))
  have hlow : ∀ j < D, lowIdx s D fC j n = k j := by
    intro j hj
    rw [lowIdx, hu j hj, Int.floor_natCast, Int.toNat_natCast]
    exact Nat.mod_eq_of_lt (hksm j hj)
  have hfrac : ∀ j < D, fracU s D fC j n = 0 := by
    intro j hj
    rw [fracU, hu j hj, hlow j hj]
    ring
  have hret : ∀ d < D, retFrac s D fC d n = 0 := by
    intro d hd
    rw [retFrac]
    exact hfrac (D - 1 - d) (by omega)
  have hwz : ∀ w ∈ stepWeights s D (fun d => retFrac s D fC d n), w = 0 := by
    intro w hw2
    rcases List.mem_append.mp hw2 with h | h
    · obtain ⟨d, hd, rfl⟩ := List.mem_map.mp h
      have hd2 : d < D - 1 := List.mem_range.mp hd
      show ntGet s.warp d (retFrac s D fC d n) = 0
      rw [hret d (by omega)]
      exact hw _ (ntGet_mem hs.2.2.2.2.1 d)
    · rw [List.mem_singleton] at h
      subst h
      show lastD s.warp default (retFrac s D fC (D - 1) n) = 0
      rw [hret (D - 1) (by omega)]
      exact hw _ (lastD_mem _ _ hs.2.2.2.2.1)
  rw [sampleAt, bNoise, collapseSteps_allZero _ _ hwz, cornerVal]
  apply congrArg
  apply congrArg
  apply List.map_congr_left
  intro j hj
  have hj2 : j < D := List.mem_range.mp hj
  rw [bIdx, hlow j hj2, cornerBit]
  simp

/-- Closed witness for the amended C3 at the origin of a concrete 1-axis
configuration. -/
theorem c3_corner_exactness_amended_witness :
    sampleAt (fun _ => 1 / 4) ⟨[2], [1], [fun t => t], (0, 1), 1, 1, 0⟩ 1
        (fun _ _ => 0) 0 =
      applyRange ⟨[2], [1], [fun t => t], (0, 1), 1, 1, 0⟩
        ((fun _ => 1 / 4) ((List.range 1).map fun j =>
          0 % mFreq ⟨[2], [1], [fun t => t], (0, 1), 1, 1, 0⟩ j)) :=
  c3_corner_exactness_amended (fun _ => 1 / 4) _
    ⟨by simp, by decide, by simp, by decide, by simp, by decide⟩
    1 (by norm_num) _ 0 (fun _ => 0)
    (by intro j hj; simp)
    (by intro j hj; norm_num)
    (by intro w hw2; rw [List.mem_singleton] at hw2; subst hw2; rfl)

/-- The simplest concrete configuration: frequency (2,), waveLength (1,),
identity warp, range (0, 1) — internodal spacing 1/2. -/
def sUnit : NPerlinState := ⟨[2], [1], [fun t => t], (0, 1), 1, 1, 0⟩

lemma sUnit_amp0 : amp sUnit 0 = 1 / 2 := by
  norm_num [amp, ampNT, sUnit, ntGet, List.zip]

lemma sUnit_u32768 : uCoord sUnit 1 (fun _ _ => 32768) 0 0 = 65536 := by
  show (32768 : ℚ) / amp sUnit 0 = 65536
  rw [sUnit_amp0]
  norm_num

lemma sUnit_low32768 : lowIdx sUnit 1 (fun _ _ => 32768) 0 0 = 0 := by
  rw [lowIdx, sUnit_u32768]
  norm_num
  decide

lemma sUnit_frac32768 : retFrac sUnit 1 (fun _ _ => 32768) 0 0 = 65536 := by
  show fracU sUnit 1 (fun _ _ => 32768) 0 0 = 65536
  rw [fracU, sUnit_u32768, sUnit_low32768]
  norm_num

/-- C5 counterexample: on `sHet` the unitized value that drives original axis
0 is 2 — the coordinate divided by the OTHER axis's spacing — not the claimed
`coordinate / amp[0] = 1`; and a coordinate of 32768 on `sUnit` leaves a
fractional offset of 65536, far outside [0, 1). -/
theorem c5_bounds_resolver_counterexample :
    retU sHet 2 fHet 0 0 = 2 ∧
    fHet 0 0 / amp sHet 0 = 1 ∧
    retU sHet 2 fHet 0 0 ≠ fHet 0 0 / amp sHet 0 ∧
    retFrac sUnit 1 (fun _ _ => 32768) 0 0 = 65536 ∧
    ¬ retFrac sUnit 1 (fun _ _ => 32768) 0 0 < 1 := by
  have h2 : fHet 0 0 / amp sHet 0 = 1 := by
    rw [sHet_amp0]
    norm_num [fHet]
  refine ⟨fHet_u1, h2, ?_, sUnit_frac32768, ?_⟩
  · rw [show retU sHet 2 fHet 0 0 = uCoord sHet 2 fHet 1 0 from rfl, fHet_u1, h2]
    norm_num
  · rw [sUnit_frac32768]
    norm_num

/-- C5 (amended): for each returned axis `d` the bounds resolver unitizes by
the MIRRORED axis's internodal spacing `amp[D-1-d]` (row reversal in
`findBounds`); the lower index is the floor truncated to uint16, the
fractional offset is the unitized coordinate minus that truncated index, and
it lies in [0, 1) exactly on the unitized range [0, 2^16). -/
theorem c5_bounds_resolver_amended (s : NPerlinState) (D : ℕ) (fC : ℕ → ℕ → ℚ)
    (d n : ℕ) (hd : d < D) :
    retU s D fC d n = fC d n / amp s (D - 1 - d) ∧
    retFrac s D fC d n =
      retU s D fC d n - (((⌊retU s D fC d n⌋).toNat % 65536 : ℕ) : ℚ) ∧
    (0 ≤ retU s D fC d n → retU s D fC d n < 65536 →
      0 ≤ retFrac s D fC d n ∧ retFrac s D fC d n < 1) := by
  have hdd : D - 1 - (D - 1 - d) = d := by omega
  refine ⟨?_, rfl, ?_⟩
  · rw [retU, uCoord, hdd]
  · intro h0 h1
    exact fracU_mem_Ico h0 h1

/-- Closed witness for the amended C5 at a concrete in-range coordinate. -/
theorem c5_bounds_resolver_amended_witness :
    0 ≤ retFrac sUnit 1 (fun _ _ => 1 / 4) 0 0 ∧
    retFrac sUnit 1 (fun _ _ => 1 / 4) 0 0 < 1 :=
  (c5_bounds_resolver_amended sUnit 1 (fun _ _ => 1 / 4) 0 0 (by norm_num)).2.2
    (by norm_num [retU, uCoord, amp, ampNT, ntGet, sUnit, List.zip])
    (by norm_num [retU, uCoord, amp, ampNT, ntGet, sUnit, List.zip])

/-- A concrete configuration with distinct per-axis wavelengths: frequency
(2, 2), waveLength (1, 2), identity warp — spacings 1/2 and 1. -/
def sPer : NPerlinState := ⟨[2, 2], [1, 2], [fun t => t], (0, 1), 1, 1, 0⟩

/-- The origin, as 2-axis single-sample coordinates. -/
def fPerA : ℕ → ℕ → ℚ := fun _ _ => 0

/-- The origin shifted by `effectiveWaveLength[0] = 1` along axis 0. -/
def fPerB : ℕ → ℕ → ℚ := fun d _ => if d = 0 then 1 else 0

/-- A concrete content-addressed provider with values in [0, 1). -/
def prngPer : List ℕ → ℚ := fun l => if l = [0, 1] then 1 / 2 else 0

lemma sPer_amp0 : amp sPer 0 = 1 / 2 := by
  norm_num [amp, ampNT, sPer, ntGet, List.zip]

lemma sPer_amp1 : amp sPer 1 = 1 := by
  norm_num [amp, ampNT, sPer, ntGet, List.zip]

lemma fPerA_u0 : uCoord sPer 2 fPerA 0 0 = 0 := by
  show fPerA 1 0 / amp sPer 0 = 0
  rw [sPer_amp0]
  norm_num [fPerA]

lemma fPerA_u1 : uCoord sPer 2 fPerA 1 0 = 0 := by
  show fPerA 0 0 / amp sPer 1 = 0
  rw [sPer_amp1]
  norm_num [fPerA]

lemma fPerA_low0 : lowIdx sPer 2 fPerA 0 0 = 0 := by
  rw [lowIdx, fPerA_u0]
  norm_num

lemma fPerA_low1 : lowIdx sPer 2 fPerA 1 0 = 0 := by
  rw [lowIdx, fPerA_u1]
  norm_num

lemma fPerA_ret0 : retFrac sPer 2 fPerA 0 0 = 0 := by
  show fracU sPer 2 fPerA 1 0 = 0
  rw [fracU, fPerA_u1, fPerA_low1]
  norm_num

lemma fPerA_ret1 : retFrac sPer 2 fPerA 1 0 = 0 := by
  show fracU sPer 2 fPerA 0 0 = 0
  rw [fracU, fPerA_u0, fPerA_low0]
  norm_num

lemma fPerA_weights :
    stepWeights sPer 2 (fun d => retFrac sPer 2 fPerA d 0) = [0, 0] := by
  rw [stepWeights]
  norm_num [List.range_succ, ntGet, lastD, sPer]
  exact ⟨fPerA_ret0, fPerA_ret1⟩

lemma sPer_mf0 : mFreq sPer 0 = 2 := by decide

lemma sPer_mf1 : mFreq sPer 1 = 2 := by decide

lemma fPerA_corner0 : cornerVal prngPer sPer 2 fPerA 0 0 = 0 := by
  rw [cornerVal]
  norm_num [List.range_succ, bIdx, cornerBit, fPerA_low0, fPerA_low1,
    sPer_mf0, sPer_mf1, prngPer]

lemma fPerA_sample : sampleAt prngPer sPer 2 fPerA 0 = 0 := by
  rw [sampleAt, bNoise, fPerA_weights]
  simp only [collapseSteps, interpStep]
  rw [fPerA_corner0]
  norm_num [applyRange, sPer]

lemma fPerB_u0 : uCoord sPer 2 fPerB 0 0 = 0 := by
  show fPerB 1 0 / amp sPer 0 = 0
  rw [sPer_amp0]
  norm_num [fPerB]

lemma fPerB_u1 : uCoord sPer 2 fPerB 1 0 = 1 := by
  show fPerB 0 0 / amp sPer 1 = 1
  rw [sPer_amp1]
  norm_num [fPerB]

lemma fPerB_low0 : lowIdx sPer 2 fPerB 0 0 = 0 := by
  rw [lowIdx, fPerB_u0]
  norm_num

lemma fPerB_low1 : lowIdx sPer 2 fPerB 1 0 = 1 := by
  rw [lowIdx, fPerB_u1]
  norm_num

lemma fPerB_ret0 : retFrac sPer 2 fPerB 0 0 = 0 := by
  show fracU sPer 2 fPerB 1 0 = 0
  rw [fracU, fPerB_u1, fPerB_low1]
  norm_num

lemma fPerB_ret1 : retFrac sPer 2 fPerB 1 0 = 0 := by
  show fracU sPer 2 fPerB 0 0 = 0
  rw [fracU, fPerB_u0, fPerB_low0]
  norm_num

lemma fPerB_weights :
    stepWeights sPer 2 (fun d => retFrac sPer 2 fPerB d 0) = [0, 0] := by
  rw [stepWeights]
  norm_num [List.range_succ, ntGet, lastD, sPer]
  exact ⟨fPerB_ret0, fPerB_ret1⟩

lemma fPerB_corner0 : cornerVal prngPer sPer 2 fPerB 0 0 = 1 / 2 := by
  rw [cornerVal]
  norm_num [List.range_succ, bIdx, cornerBit, fPerB_low0, fPerB_low1,
    sPer_mf0, sPer_mf1, prngPer]

lemma fPerB_sample : sampleAt prngPer sPer 2 fPerB 0 = 1 / 2 := by
  rw [sampleAt, bNoise, fPerB_weights]
  simp only [collapseSteps, interpStep]
  rw [fPerB_corner0]
  norm_num [applyRange, sPer]

/-- C4 counterexample: on `sPer` (waveLength (1, 2)), shifting axis 0 by its
own effective wavelength `mWaveL[0] = 1` changes the sample (0 becomes 1/2),
because `findBounds` unitizes axis 0 by the mirrored axis's spacing: the
actual period of axis 0 is `mWaveL[1] = 2`, so the claim fails as stated. -/
theorem c4_periodicity_counterexample :
    mWaveL sPer 0 = 1 ∧
    (∀ d, fPerB d 0 = fPerA d 0 + (if d = 0 then mWaveL sPer 0 else 0)) ∧
    sampleAt prngPer sPer 2 fPerA 0 = 0 ∧
    sampleAt prngPer sPer 2 fPerB 0 = 1 / 2 ∧
    sampleAt prngPer sPer 2 fPerB 0 ≠ sampleAt prngPer sPer 2 fPerA 0 := by
  have hwl : mWaveL sPer 0 = 1 := by
    norm_num [mWaveL, sPer, ntGet]
  refine ⟨hwl, ?_, fPerA_sample, fPerB_sample, ?_⟩
  · intro d
    by_cases hd : d = 0 <;> simp [fPerA, fPerB, hd, hwl]
  · rw [fPerA_sample, fPerB_sample]
    norm_num

lemma lastD_map {α β : Type} (f : α → β) : ∀ (l : List α) (d : α),
    lastD (l.map f) (f d) = f (lastD l d)
  | [], _ => rfl
  | a :: t, d => by
      rw [List.map_cons, lastD, lastD]
      exact lastD_map f t a

lemma lastD_map_ne {α β : Type} (g : α → β) :
    ∀ (l : List α) (d2 : α) (d : β), l ≠ [] → lastD (l.map g) d = g (lastD l d2)
  | [], _, _, h => absurd rfl h
  | a :: t, d2, d, _ => by
      rw [List.map_cons, lastD, lastD]
      exact lastD_map g t a

lemma lastD_zip {α β : Type} : ∀ (l1 : List α) (l2 : List β) (d1 : α) (d2 : β),
    l1.length = l2.length →
    lastD (l1.zip l2) (d1, d2) = (lastD l1 d1, lastD l2 d2)
  | [], [], _, _, _ => rfl
  | [], _ :: _, _, _, h => by simp at h
  | _ :: _, [], _, _, h => by simp at h
  | a :: t1, b :: t2, d1, d2, h => by
      rw [List.zip_cons_cons, lastD, lastD, lastD]
      exact lastD_zip t1 t2 a b (by simpa using h)

lemma amp_eq_div {s : NPerlinState}
    (hlen : s.waveLength.length = s.frequency.length) (hne : s.waveLength ≠ [])
    (j : ℕ) :
    amp s j = mWaveL s j / (mFreq s j : ℚ) := by
  have hfne : s.frequency ≠ [] := by
    intro h
    rw [h] at hlen
    simp only [List.length_nil, List.length_eq_zero] at hlen
    exact hne hlen
  have hzlen : (s.waveLength.zip s.frequency).length = s.waveLength.length := by
    rw [List.length_zip, hlen, min_self, ← hlen]
  rw [amp, ampNT, mWaveL, mFreq, ntGet, ntGet, ntGet]
  simp only [List.length_map, hzlen]
  by_cases hj : j < s.waveLength.length
  · rw [dif_pos hj, dif_pos hj, dif_pos (show j < s.frequency.length by omega)]
    simp only [List.get_eq_getElem, List.getElem_map, List.getElem_zip]
    push_cast
    ring
  · rw [dif_neg hj, dif_neg hj,
      dif_neg (show ¬ j < s.frequency.length by omega)]
    have hzne : s.waveLength.zip s.frequency ≠ [] := by
      simp only [ne_eq, List.zip_eq_nil_iff]
      push_neg
      exact ⟨hne, hfne⟩
    rw [lastD_map_ne _ _ (default, default) _ hzne, lastD_zip _ _ _ _ hlen]
    push_cast
    ring

lemma mWaveL_pos {s : NPerlinState} (hs : s.wf) (j : ℕ) : 0 < mWaveL s j := by
  obtain ⟨hf, hf1, hw, hw1, _, hfwm⟩ := hs
  have hfw : (0 : ℚ) < (s.fwm : ℚ) := by
    exact_mod_cast Nat.lt_of_lt_of_le Nat.zero_lt_one hfwm
  have hwl : (0 : ℚ) < ntGet s.waveLength j := hw1 _ (ntGet_mem hw j)
  rw [mWaveL]
  positivity

lemma mWaveL_div_amp {s : NPerlinState} (hs : s.wf)
    (hlen : s.waveLength.length = s.frequency.length) (j : ℕ) :
    mWaveL s j / amp s j = (mFreq s j : ℚ) := by
  have hww : mWaveL s j ≠ 0 := ne_of_gt (mWaveL_pos hs j)
  have hff : (mFreq s j : ℚ) ≠ 0 := by
    have := mFreq_pos hs j
    positivity
  rw [amp_eq_div hlen hs.2.2.1 j]
  field_simp

/-- C4 (amended): with waveLength and frequency declared at equal lengths,
shifting original axis `a` by the MIRRORED effective wavelength
`mWaveL[D-1-a]` leaves the sample unchanged, provided the coordinate is
nonnegative and its unitized value plus the mirrored effective frequency
stays below 2^16 (the uint16 cast otherwise breaks the period). -/
theorem c4_periodicity_amended (prng : List ℕ → ℚ) (s : NPerlinState)
    (hs : s.wf) (hlen : s.waveLength.length = s.frequency.length)
    (D : ℕ) (fC fC2 : ℕ → ℕ → ℚ) (a : ℕ) (ha : a < D) (n : ℕ)
    (hshift : ∀ d, fC2 d n =
      if d = a then fC d n + mWaveL s (D - 1 - a) else fC d n)
    (h0 : 0 ≤ fC a n)
    (hsm : uCoord s D fC (D - 1 - a) n + (mFreq s (D - 1 - a) : ℚ) < 65536) :
    sampleAt prng s D fC2 n = sampleAt prng s D fC n := by
  set j := D - 1 - a with hjdef
  have hja : D - 1 - j = a := by omega
  have hampj := amp_pos hs j
  have hune : ∀ d, d < D → d ≠ j → uCoord s D fC2 d n = uCoord s D fC d n := by
    intro d hd hdj
    rw [uCoord, uCoord, hshift (D - 1 - d), if_neg (by omega)]
  have huj : uCoord s D fC2 j n = uCoord s D fC j n + (mFreq s j : ℚ) := by
    rw [uCoord, uCoord, hja, hshift a, if_pos rfl, add_div]
    rw [mWaveL_div_amp hs hlen j]
  have h0u : 0 ≤ uCoord s D fC j n := by
    rw [uCoord, hja]
    exact div_nonneg h0 hampj.le
  have hflo0 : 0 ≤ ⌊uCoord s D fC j n⌋ := Int.floor_nonneg.mpr h0u
  have hfloorj : ⌊uCoord s D fC2 j n⌋ = ⌊uCoord s D fC j n⌋ + mFreq s j := by
    rw [huj]
    exact_mod_cast Int.floor_add_nat (uCoord s D fC j n) (mFreq s j)
  have hfloorlt : ⌊uCoord s D fC j n⌋ + (mFreq s j : ℤ) < 65536 := by
    have hle := Int.floor_le (uCoord s D fC j n)
    have : (⌊uCoord s D fC j n⌋ : ℚ) + (mFreq s j : ℚ) < 65536 := by linarith
    exact_mod_cast this
  have hlowne : ∀ d, d < D → d ≠ j → lowIdx s D fC2 d n = lowIdx s D fC d n := by
    intro d hd hdj
    rw [lowIdx, lowIdx, hune d hd hdj]
  have hlowj : lowIdx s D fC2 j n = lowIdx s D fC j n + mFreq s j := by
    rw [lowIdx, lowIdx, hfloorj]
    omega
  have hlowjlt : lowIdx s D fC j n = (⌊uCoord s D fC j n⌋).toNat := by
    rw [lowIdx]
    omega
  have hfracall : ∀ d, d < D → fracU s D fC2 d n = fracU s D fC d n := by
    intro d hd
    by_cases hdj : d = j
    · subst hdj
      rw [fracU, fracU, huj, hlowj]
      push_cast
      ring
    · rw [fracU, fracU, hune d hd hdj, hlowne d hd hdj]
  have hretall : ∀ d, d < D → retFrac s D fC2 d n = retFrac s D fC d n := by
    intro d hd
    rw [retFrac, retFrac]
    exact hfracall (D - 1 - d) (by omega)
  have hbIdx : ∀ d, d < D → ∀ v, bIdx s D fC2 d v n = bIdx s D fC d v n := by
    intro d hd v
    by_cases hdj : d = j
    · subst hdj
      rw [bIdx, bIdx, hlowj,
        show lowIdx s D fC j n + mFreq s j + cornerBit D v j =
          lowIdx s D fC j n + cornerBit D v j + mFreq s j by ring,
        Nat.add_mod_right]
    · rw [bIdx, bIdx, hlowne d hd hdj]
  have hcv : (fun v => cornerVal prng s D fC2 v n) =
      (fun v => cornerVal prng s D fC v n) := by
    funext v
    rw [cornerVal, cornerVal]
    apply congrArg
    apply List.map_congr_left
    intro d hd
    exact hbIdx d (List.mem_range.mp hd) v
  have hsw : stepWeights s D (fun d => retFrac s D fC2 d n) =
      stepWeights s D (fun d => retFrac s D fC d n) := by
    rw [stepWeights, stepWeights]
    congr 1
    · apply List.map_congr_left
      intro d hd
      have hd2 := List.mem_range.mp hd
      show ntGet s.warp d (retFrac s D fC2 d n) = ntGet s.warp d (retFrac s D fC d n)
      rw [hretall d (by omega)]
    · show [lastD s.warp default (retFrac s D fC2 (D - 1) n)] =
        [lastD s.warp default (retFrac s D fC (D - 1) n)]
      rw [hretall (D - 1) (by omega)]
  rw [sampleAt, sampleAt, bNoise, bNoise, hsw, hcv]

/-- Closed witness for the amended C4: shifting the single axis of `sUnit`
by its effective wavelength does not change the sample. -/
theorem c4_periodicity_amended_witness :
    sampleAt (fun l => if l = [1] then 1 / 2 else 0) sUnit 1
        (fun d _ => if d = 0 then 0 + mWaveL sUnit 0 else 0) 0 =
      sampleAt (fun l => if l = [1] then 1 / 2 else 0) sUnit 1 (fun _ _ => 0) 0 :=
  c4_periodicity_amended (fun l => if l = [1] then 1 / 2 else 0) sUnit
    ⟨by simp [sUnit], by decide, by simp [sUnit], by decide, by simp [sUnit], by decide⟩
    (by decide) 1 (fun _ _ => 0) (fun d _ => if d = 0 then 0 + mWaveL sUnit 0 else 0)
    0 (by norm_num) 0
    (by intro d; by_cases hd : d = 0 <;> simp [hd])
    (by norm_num)
    (by norm_num [uCoord, amp, ampNT, ntGet, sUnit, List.zip, mFreq])

lemma stepWeights_mem_Icc {s : NPerlinState} (hwne : s.warp ≠ [])
    (hwarp : ∀ w ∈ s.warp, ∀ t : ℚ, 0 ≤ t → t ≤ 1 → 0 ≤ w t ∧ w t ≤ 1)
    {D : ℕ} (hD : 1 ≤ D) {f : ℕ → ℚ}
    (hf : ∀ d < D, 0 ≤ f d ∧ f d ≤ 1) :
    ∀ w ∈ stepWeights s D f, 0 ≤ w ∧ w ≤ 1 := by
  intro w hw
  rcases List.mem_append.mp hw with h | h
  · obtain ⟨d, hd, rfl⟩ := List.mem_map.mp h
    have hd2 := List.mem_range.mp hd
    have hfd := hf d (by omega)
    exact hwarp _ (ntGet_mem hwne d) _ hfd.1 hfd.2
  · rw [List.mem_singleton] at h
    subst h
    have hfd := hf (D - 1) (by omega)
    exact hwarp _ (lastD_mem _ _ hwne) _ hfd.1 hfd.2

lemma sampleAt_mem_range (prng : List ℕ → ℚ) (s : NPerlinState) (hs : s.wf)
    (hrm : s.rangeMul = s.range.2 - s.range.1) (hlohi : s.range.1 ≤ s.range.2)
    (hwarp : ∀ w ∈ s.warp, ∀ t : ℚ, 0 ≤ t → t ≤ 1 → 0 ≤ w t ∧ w t ≤ 1)
    (hprng : ∀ ix, 0 ≤ prng ix ∧ prng ix < 1)
    (D : ℕ) (hD : 1 ≤ D) (fC : ℕ → ℕ → ℚ) (n : ℕ)
    (hu : ∀ d < D, 0 ≤ uCoord s D fC d n ∧ uCoord s D fC d n < 65536) :
    s.range.1 ≤ sampleAt prng s D fC n ∧ sampleAt prng s D fC n ≤ s.range.2 := by
  have hfr : ∀ d < D, 0 ≤ retFrac s D fC d n ∧ retFrac s D fC d n ≤ 1 := by
    intro d hd
    have h2 := fracU_mem_Ico (hu (D - 1 - d) (by omega)).1 (hu (D - 1 - d) (by omega)).2
    exact ⟨h2.1, h2.2.le⟩
  have hraw := collapseSteps_mem_Icc
    (stepWeights s D (fun d => retFrac s D fC d n))
    (fun v => cornerVal prng s D fC v n)
    (stepWeights_mem_Icc hs.2.2.2.2.1 hwarp hD hfr)
    (fun v => ⟨(hprng _).1, (hprng _).2.le⟩) 0
  rw [sampleAt, bNoise, applyRange, hrm]
  constructor <;> nlinarith [hraw.1, hraw.2]

lemma formatCoords_getD {coords : List PyCoord} {r : ℕ} (hr : r < coords.length) :
    (formatCoords coords).getD r [] =
      (formatAxis (maxLenM coords) (toSeq (coords.getD r (Sum.inl 0)))).map
        (fun x => |x|) := by
  rw [formatCoords]
  rw [List.getD_eq_getElem _ _ (by rw [List.length_map]; exact hr)]
  rw [List.getElem_map]
  rw [List.getD_eq_getElem _ _ hr]

lemma formatCoords_entry {coords : List PyCoord} {r n : ℕ}
    (hr : r < coords.length)
    (hne : toSeq (coords.getD r (Sum.inl 0)) ≠ [])
    (hn : n < maxLenM coords) :
    ∃ x ∈ toSeq (coords.getD r (Sum.inl 0)),
      toMat (formatCoords coords) r n = |x| := by
  have hn2 : n < (formatAxis (maxLenM coords) (toSeq (coords.getD r (Sum.inl 0)))).length := by
    rw [formatAxis_length hne]
    exact hn
  refine ⟨(formatAxis (maxLenM coords) (toSeq (coords.getD r (Sum.inl 0)))).get ⟨n, hn2⟩,
    mem_formatAxis hne (List.get_mem _ _ _), ?_⟩
  rw [toMat, formatCoords_getD hr]
  rw [List.getD_eq_getElem _ _ (by rw [List.length_map]; exact hn2)]
  rw [List.getElem_map]
  rfl

lemma nPerlinCall_nonempty (prng : ℕ → List ℕ → ℚ) (s : NPerlinState)
    (coords : List PyCoord) (hne : coords ≠ []) :
    nPerlinCall prng s coords =
      (List.range (maxLenM coords)).map fun n =>
        sampleAt (prng s.seed) s coords.length (toMat (formatCoords coords)) n := by
  cases coords with
  | nil => exact absurd rfl hne
  | cons a t => rfl

/-- A concrete provider family, constant in the seed, with values in [0, 1). -/
def prngC2 : ℕ → List ℕ → ℚ := fun _ l => if l = [1] then 1 / 2 else 0

lemma c2eval_format : formatCoords [Sum.inl (32768 : ℚ)] = [[32768]] := by
  norm_num [formatCoords, formatAxis, repeatEach, maxLenM, listMax, toSeq,
    lastD, List.replicate]

lemma c2_u : uCoord sUnit 1 (toMat [[32768]]) 0 0 = 65536 := by
  show toMat [[(32768 : ℚ)]] 0 0 / amp sUnit 0 = 65536
  rw [sUnit_amp0]
  norm_num [toMat]

lemma c2_low : lowIdx sUnit 1 (toMat [[32768]]) 0 0 = 0 := by
  rw [lowIdx, c2_u]
  norm_num
  decide

lemma c2_ret : retFrac sUnit 1 (toMat [[32768]]) 0 0 = 65536 := by
  show fracU sUnit 1 (toMat [[32768]]) 0 0 = 65536
  rw [fracU, c2_u, c2_low]
  norm_num

lemma c2_weights :
    stepWeights sUnit 1 (fun d => retFrac sUnit 1 (toMat [[32768]]) d 0) =
      [65536] := by
  rw [stepWeights]
  norm_num [List.range_zero, ntGet, lastD, sUnit]
  exact c2_ret

lemma sUnit_mf0 : mFreq sUnit 0 = 2 := by decide

lemma c2_corner0 : cornerVal (prngC2 sUnit.seed) sUnit 1 (toMat [[32768]]) 0 0 = 0 := by
  rw [cornerVal]
  norm_num [List.range_succ, bIdx, cornerBit, c2_low, sUnit_mf0, prngC2]

lemma c2_corner1 : cornerVal (prngC2 sUnit.seed) sUnit 1 (toMat [[32768]]) 1 0 = 1 / 2 := by
  rw [cornerVal]
  norm_num [List.range_succ, bIdx, cornerBit, c2_low, sUnit_mf0, prngC2]

lemma c2_sampleAt :
    sampleAt (prngC2 sUnit.seed) sUnit 1 (toMat [[32768]]) 0 = 32768 := by
  rw [sampleAt, bNoise, c2_weights]
  simp only [collapseSteps, interpStep]
  rw [c2_corner0, c2_corner1]
  norm_num [applyRange, sUnit]

lemma c2eval_call : nPerlinCall prngC2 sUnit [Sum.inl 32768] = [32768] := by
  rw [nPerlinCall_nonempty _ _ _ (by simp)]
  have hN : maxLenM [Sum.inl (32768 : ℚ)] = 1 := by
    norm_num [maxLenM, listMax, toSeq]
  rw [hN, c2eval_format]
  simp only [List.range_succ, List.range_zero, List.nil_append, List.map_cons,
    List.map_nil]
  rw [show [Sum.inl (32768 : ℚ)].length = 1 from rfl]
  rw [c2_sampleAt]

/-- C2 counterexample: with range (0, 1), the identity warp (which maps
[0, 1] into [0, 1]) and provider values in [0, 1), sampling the single
coordinate 32768 on `sUnit` returns 32768: the uint16 truncation leaves a
fractional offset of 65536, the blend extrapolates far beyond the corner
values, and the output escapes [lo, hi], so the claim fails as stated. -/
theorem c2_range_bound_counterexample :
    sUnit.range.1 ≤ sUnit.range.2 ∧
    sUnit.rangeMul = sUnit.range.2 - sUnit.range.1 ∧
    (∀ w ∈ sUnit.warp, ∀ t : ℚ, 0 ≤ t → t ≤ 1 → 0 ≤ w t ∧ w t ≤ 1) ∧
    (∀ seed ix, 0 ≤ prngC2 seed ix ∧ prngC2 seed ix < 1) ∧
    nPerlinCall prngC2 sUnit [Sum.inl 32768] = [32768] ∧
    ¬ (∀ y ∈ nPerlinCall prngC2 sUnit [Sum.inl 32768],
        sUnit.range.1 ≤ y ∧ y ≤ sUnit.range.2) := by
  refine ⟨by norm_num [sUnit], by norm_num [sUnit], ?_, ?_, c2eval_call, ?_⟩
  · intro w hw t h0 h1
    rw [sUnit] at hw
    simp only [List.mem_singleton] at hw
    subst hw
    exact ⟨h0, h1⟩
  · intro seed ix
    simp only [prngC2]
    split <;> norm_num
  · intro hcon
    have hmem : (32768 : ℚ) ∈ nPerlinCall prngC2 sUnit [Sum.inl 32768] := by
      rw [c2eval_call]
      simp
    have := (hcon 32768 hmem).2
    norm_num [sUnit] at this

/-- C2 (amended): for a well-formed configuration with lo ≤ hi and the
stored multiplier invariant, with every warp mapping [0, 1] into [0, 1] and
every provider value in [0, 1), every value returned by the sampling entry
point lies in [lo, hi] PROVIDED every coordinate magnitude stays below 2^16
times the mirrored axis's internodal spacing (so the uint16 cast in
`findBounds` is lossless). -/
theorem c2_range_bound_amended (prng : ℕ → List ℕ → ℚ) (s : NPerlinState)
    (hs : s.wf) (hrm : s.rangeMul = s.range.2 - s.range.1)
    (hlohi : s.range.1 ≤ s.range.2)
    (hwarp : ∀ w ∈ s.warp, ∀ t : ℚ, 0 ≤ t → t ≤ 1 → 0 ≤ w t ∧ w t ≤ 1)
    (hprng : ∀ ix, 0 ≤ prng s.seed ix ∧ prng s.seed ix < 1)
    (coords : List PyCoord) (hcne : coords ≠ [])
    (hseq : ∀ c ∈ coords, toSeq c ≠ [])
    (hb : ∀ r < coords.length, ∀ x ∈ toSeq (coords.getD r (Sum.inl 0)),
      |x| < 65536 * amp s (coords.length - 1 - r)) :
    ∀ y ∈ nPerlinCall prng s coords, s.range.1 ≤ y ∧ y ≤ s.range.2 := by
  intro y hy
  rw [nPerlinCall_nonempty prng s coords hcne] at hy
  obtain ⟨n, hn, rfl⟩ := List.mem_map.mp hy
  have hnN := List.mem_range.mp hn
  have hD : 1 ≤ coords.length := List.length_pos.mpr hcne
  apply sampleAt_mem_range _ _ hs hrm hlohi hwarp hprng _ hD _ n
  intro d hd
  have hr : coords.length - 1 - d < coords.length := by omega
  have hamp := amp_pos hs d
  have hrne : toSeq (coords.getD (coords.length - 1 - d) (Sum.inl 0)) ≠ [] := by
    apply hseq
    rw [List.getD_eq_getElem _ _ hr]
    exact List.getElem_mem hr
  obtain ⟨x, hx, hxe⟩ := formatCoords_entry hr hrne hnN
  have hxb := hb (coords.length - 1 - d) hr x hx
  rw [show coords.length - 1 - (coords.length - 1 - d) = d by omega] at hxb
  rw [uCoord, hxe]
  constructor
  · exact div_nonneg (abs_nonneg x) hamp.le
  · rw [div_lt_iff₀ hamp]
    linarith

/-- Closed witness for the amended C2: the single in-range coordinate 1/4 on
`sUnit` with the all-zero provider yields a sample inside [0, 1]. -/
theorem c2_range_bound_amended_witness :
    sUnit.range.1 ≤ sampleAt (fun _ => (0 : ℚ)) sUnit 1
        (toMat (formatCoords [Sum.inl (1 / 4)])) 0 ∧
    sampleAt (fun _ => (0 : ℚ)) sUnit 1
        (toMat (formatCoords [Sum.inl (1 / 4)])) 0 ≤ sUnit.range.2 := by
  have hmem : sampleAt (fun _ => (0 : ℚ)) sUnit 1
      (toMat (formatCoords [Sum.inl (1 / 4)])) 0 ∈
      nPerlinCall (fun _ _ => 0) sUnit [Sum.inl (1 / 4)] := by
    rw [nPerlinCall_nonempty _ _ _ (by simp)]
    refine List.mem_map.mpr ⟨0, ?_, rfl⟩
    rw [List.mem_range]
    norm_num [maxLenM, listMax, toSeq]
  refine c2_range_bound_amended (fun _ _ => 0) sUnit
    ⟨by simp [sUnit], by decide, by simp [sUnit], by decide, by simp [sUnit], by decide⟩
    (by norm_num [sUnit]) (by norm_num [sUnit]) ?_ (by intro ix; norm_num)
    [Sum.inl (1 / 4)] (by simp) ?_ ?_ _ hmem
  · intro w hw t h0 h1
    rw [sUnit] at hw
    simp only [List.mem_singleton] at hw
    subst hw
    exact ⟨h0, h1⟩
  · intro c hc
    simp only [List.mem_singleton] at hc
    subst hc
    simp [toSeq]
  · intro r hr x hx
    simp only [List.length_singleton] at hr
    have hr0 : r = 0 := by omega
    subst hr0
    simp only [toSeq, List.getD_cons_zero, List.mem_singleton] at hx
    subst hx
    rw [show [Sum.inl (1 / 4 : ℚ)].length - 1 - 0 = 0 from rfl, sUnit_amp0]
    rw [abs_of_pos (by norm_num : (0 : ℚ) < 1 / 4)]
    norm_num

lemma getD_map_abs : ∀ (l : List ℚ) (j : ℕ),
    (l.map fun x => |x|).getD j 0 = |l.getD j 0|
  | [], j => by simp
  | a :: t, 0 => rfl
  | a :: t, j + 1 => by
      rw [List.map_cons, List.getD_cons_succ, List.getD_cons_succ]
      exact getD_map_abs t j

lemma repeatEach_getD {k : ℕ} (hk : 0 < k) :
    ∀ (c : List ℚ) (j : ℕ), j < k * c.length →
      (repeatEach k c).getD j 0 = c.getD (j / k) 0 := by
  intro c
  induction c with
  | nil => intro j hj; simp at hj
  | cons a t ih =>
      intro j hj
      rw [repeatEach]
      by_cases hjk : j < k
      · rw [List.getD_append _ _ _ _ (by rw [List.length_replicate]; exact hjk)]
        rw [Nat.div_eq_of_lt hjk, List.getD_cons_zero]
        rw [List.getD_eq_getElem _ _ (by rw [List.length_replicate]; exact hjk)]
        exact List.getElem_replicate _ _
      · push_neg at hjk
        rw [List.getD_append_right _ _ _ _ (by rw [List.length_replicate]; exact hjk)]
        rw [List.length_replicate]
        have hmul : k * (t.length + 1) = k * t.length + k := by ring
        have hj2 : j - k < k * t.length := by
          rw [List.length_cons] at hj
          omega
        rw [ih (j - k) hj2]
        have hdiv : j / k = (j - k) / k + 1 := by
          conv_lhs => rw [show j = j - k + k by omega]
          rw [Nat.add_div_right _ hk]
        rw [hdiv, List.getD_cons_succ]

lemma formatAxis_getD_lo {N : ℕ} {c : List ℚ} (hc : c ≠ []) {j : ℕ}
    (hj : j < N - N % c.length) :
    (formatAxis N c).getD j 0 = c.getD (j / (N / c.length)) 0 := by
  have hLpos : 0 < c.length := List.length_pos.mpr hc
  have hL : max 1 c.length = c.length := by omega
  have hmod := Nat.div_add_mod N c.length
  have hstretch : 0 < N / c.length := by
    rcases Nat.eq_zero_or_pos (N / c.length) with h | h
    · rw [h, Nat.mul_zero] at hmod
      omega
    · exact h
  have hjlt : j < N / c.length * c.length := by
    have : N / c.length * c.length = c.length * (N / c.length) := Nat.mul_comm _ _
    omega
  rw [formatAxis, hL]
  rw [List.getD_append _ _ _ _ (by rw [repeatEach_length]; exact hjlt)]
  exact repeatEach_getD hstretch c j hjlt

lemma formatAxis_getD_hi {N : ℕ} {c : List ℚ} (hc : c ≠ []) {j : ℕ}
    (h1 : N - N % c.length ≤ j) (h2 : j < N) :
    (formatAxis N c).getD j 0 = lastD c 0 := by
  have hLpos : 0 < c.length := List.length_pos.mpr hc
  have hL : max 1 c.length = c.length := by omega
  have hmod := Nat.div_add_mod N c.length
  have hcomm : N / c.length * c.length = c.length * (N / c.length) := Nat.mul_comm _ _
  have hlen : (repeatEach (N / c.length) c).length = N - N % c.length := by
    rw [repeatEach_length]
    omega
  rw [formatAxis, hL]
  rw [List.getD_append_right _ _ _ _ (by rw [hlen]; exact h1), hlen]
  rw [List.getD_eq_getElem _ _ (by rw [List.length_replicate]; omega)]
  exact List.getElem_replicate _ _

/-- C6 counterexample: on input `[-5, [1, 2]]` axis 0 has length 1 < N = 2
and the claimed fill by repetition would give `[-5, -5]`, but `formatCoords`
applies absolute value and returns `[5, 5]`, so the claim fails as stated. -/
theorem c6_format_coords_counterexample :
    (formatCoords [Sum.inl (-5), Sum.inr [1, 2]]).getD 0 [] = [5, 5] ∧
    (formatCoords [Sum.inl (-5), Sum.inr [1, 2]]).getD 0 [] ≠
      [(-5 : ℚ), -5] := by
  have h : (formatCoords [Sum.inl (-5), Sum.inr [1, 2]]).getD 0 [] = [5, 5] := by
    norm_num [formatCoords, formatAxis, repeatEach, maxLenM, listMax, toSeq,
      lastD, List.replicate]
  refine ⟨h, ?_⟩
  rw [h]
  intro hcon
  have := List.head_eq_of_cons_eq hcon
  norm_num at this

/-- C6 (amended): `formatCoords` returns one row per axis; for every axis
with a nonempty entry sequence `c` the row has length N (the maximum element
count, scalars counting as 1), slot `j < N - left` holds the ABSOLUTE VALUE
of `c (j / stretch)` with `stretch = N div |c|`, `left = N mod |c|`, and the
remaining `left` slots hold the absolute value of `c`'s last entry; the
spec's two broadcast examples hold. -/
theorem c6_format_coords_amended :
    (∀ coords : List PyCoord,
      (formatCoords coords).length = coords.length ∧
      ∀ r, r < coords.length → toSeq (coords.getD r (Sum.inl 0)) ≠ [] →
        ((formatCoords coords).getD r []).length = maxLenM coords ∧
        (∀ j, j < maxLenM coords -
            maxLenM coords % (toSeq (coords.getD r (Sum.inl 0))).length →
          ((formatCoords coords).getD r []).getD j 0 =
            |(toSeq (coords.getD r (Sum.inl 0))).getD
              (j / (maxLenM coords / (toSeq (coords.getD r (Sum.inl 0))).length)) 0|) ∧
        (∀ j, maxLenM coords -
            maxLenM coords % (toSeq (coords.getD r (Sum.inl 0))).length ≤ j →
          j < maxLenM coords →
          ((formatCoords coords).getD r []).getD j 0 =
            |lastD (toSeq (coords.getD r (Sum.inl 0))) 0|)) ∧
    formatCoords [Sum.inr [1, 2, 3], Sum.inl 5] = [[1, 2, 3], [5, 5, 5]] ∧
    formatCoords [Sum.inr [1, 2], Sum.inr [10, 20, 30]] = [[1, 2, 2], [10, 20, 30]] := by
  refine ⟨?_, ?_, ?_⟩
  · intro coords
    refine ⟨by rw [formatCoords, List.length_map], ?_⟩
    intro r hr hne
    rw [formatCoords_getD hr]
    refine ⟨by rw [List.length_map, formatAxis_length hne], ?_, ?_⟩
    · intro j hj
      rw [getD_map_abs, formatAxis_getD_lo hne hj]
    · intro j h1 h2
      rw [getD_map_abs, formatAxis_getD_hi hne h1 h2]
  · norm_num [formatCoords, formatAxis, repeatEach, maxLenM, listMax, toSeq,
      lastD, List.replicate]
  · norm_num [formatCoords, formatAxis, repeatEach, maxLenM, listMax, toSeq,
      lastD, List.replicate]

/-- Closed witness for the amended C6 at a concrete 1-axis input. -/
theorem c6_format_coords_amended_witness :
    ((formatCoords [Sum.inr [3, 4]]).getD 0 []).length = maxLenM [Sum.inr [3, 4]] ∧
    ((formatCoords [Sum.inr [3, 4]]).getD 0 []).getD 0 0 =
      |(toSeq (([Sum.inr [3, 4]] : List PyCoord).getD 0 (Sum.inl 0))).getD
        (0 / (maxLenM [Sum.inr [3, 4]] /
          (toSeq (([Sum.inr [3, 4]] : List PyCoord).getD 0 (Sum.inl 0))).length)) 0| := by
  have h := (c6_format_coords_amended.1 [Sum.inr [3, 4]]).2 0 (by norm_num)
    (by simp [toSeq])
  exact ⟨h.1, h.2.1 0 (by norm_num [maxLenM, listMax, toSeq])⟩

/-- C8: configuration validation is eager and exact: the frequency,
waveLength and range validators — shared by the constructor and the
individual setters — reject precisely the malformed inputs the spec names
(an entry that is not an `int` or is ≤ 1; an entry that is not a real or is
≤ 0; an argument that is not a 2-tuple of reals), and the formatted matrix
on the sampling path is always a full rectangular 2-D matrix for inputs with
nonempty axes, so no validation failure arises during a sampling call. -/
theorem c8_eager_validation :
    (∀ l : List PyNum, getFrequency (Sum.inr l) = none ↔
      ∃ x ∈ l, x.isInt = false ∨ x.val ≤ 1) ∧
    (∀ l : List PyNum, getWaveLength (Sum.inr l) = none ↔
      ∃ x ∈ l, x.isReal = false ∨ x.val ≤ 0) ∧
    (∀ r : List PyNum, getRange r = none ↔
      ¬(r.length = 2 ∧ ∀ x ∈ r, x.isReal = true)) ∧
    (∀ s a, setFrequencyS s a = none ↔ getFrequency a = none) ∧
    (∀ s a, setWaveLengthS s a = none ↔ getWaveLength a = none) ∧
    (∀ s r, setRangeS s r = none ↔ getRange r = none) ∧
    (∀ seed fwm fIn wIn warpIn rIn,
      mkNPerlin seed fwm fIn wIn warpIn rIn = none ↔
      getFrequency fIn = none ∨ getWaveLength wIn = none ∨ getRange rIn = none) ∧
    (∀ coords : List PyCoord, (∀ c ∈ coords, toSeq c ≠ []) →
      (formatCoords coords).length = coords.length ∧
      ∀ row ∈ formatCoords coords, row.length = maxLenM coords) := by
  refine ⟨?_, ?_, ?_, ?_, ?_, ?_, ?_, ?_⟩
  · intro l
    rw [getFrequency]
    by_cases h : (l.all fun x => x.isInt && decide (1 < x.val)) = true
    · rw [if_pos h]
      simp only [List.all_eq_true, Bool.and_eq_true, decide_eq_true_eq] at h
      constructor
      · intro hc
        exact absurd hc (by simp)
      · rintro ⟨x, hx, hor⟩
        obtain ⟨h1, h2⟩ := h x hx
        rcases hor with h3 | h3
        · rw [h1] at h3; cases h3
        · linarith
    · rw [if_neg h]
      simp only [List.all_eq_true, Bool.and_eq_true, decide_eq_true_eq,
        not_forall] at h
      constructor
      · intro _
        obtain ⟨x, hx, hnx⟩ := h
        refine ⟨x, hx, ?_⟩
        by_cases hi : x.isInt = true
        · right
          by_contra hv
          push_neg at hv
          exact hnx ⟨hi, hv⟩
        · left
          simpa using hi
      · intro _
        rfl
  · intro l
    rw [getWaveLength]
    by_cases h : (l.all fun x => x.isReal && decide (0 < x.val)) = true
    · rw [if_pos h]
      simp only [List.all_eq_true, Bool.and_eq_true, decide_eq_true_eq] at h
      constructor
      · intro hc
        exact absurd hc (by simp)
      · rintro ⟨x, hx, hor⟩
        obtain ⟨h1, h2⟩ := h x hx
        rcases hor with h3 | h3
        · rw [h1] at h3; cases h3
        · linarith
    · rw [if_neg h]
      simp only [List.all_eq_true, Bool.and_eq_true, decide_eq_true_eq,
        not_forall] at h
      constructor
      · intro _
        obtain ⟨x, hx, hnx⟩ := h
        refine ⟨x, hx, ?_⟩
        by_cases hi : x.isReal = true
        · right
          by_contra hv
          push_neg at hv
          exact hnx ⟨hi, hv⟩
        · left
          simpa using hi
      · intro _
        rfl
  · intro r
    rw [getRange]
    by_cases h : (decide (r.length = 2) && r.all PyNum.isReal) = true
    · rw [if_pos h]
      simp only [Bool.and_eq_true, decide_eq_true_eq, List.all_eq_true] at h
      constructor
      · intro hc
        exact absurd hc (by simp)
      · intro hc
        exact absurd ⟨h.1, h.2⟩ hc
    · rw [if_neg h]
      simp only [Bool.and_eq_true, decide_eq_true_eq, List.all_eq_true] at h
      constructor
      · intro _
        exact h
      · intro _
        rfl
  · intro s a
    rw [setFrequencyS]
    exact Option.map_eq_none'
  · intro s a
    rw [setWaveLengthS]
    exact Option.map_eq_none'
  · intro s r
    rw [setRangeS]
    exact Option.map_eq_none'
  · intro seed fwm fIn wIn warpIn rIn
    cases hf : getFrequency fIn <;> cases hw : getWaveLength wIn <;>
      cases hr : getRange rIn <;>
      simp [mkNPerlin, hf, hw, hr, bind, pure]
  · intro coords hseq
    refine ⟨by rw [formatCoords, List.length_map], ?_⟩
    intro row hrow
    rw [formatCoords] at hrow
    obtain ⟨c, hc, rfl⟩ := List.mem_map.mp hrow
    rw [List.length_map, formatAxis_length (hseq c hc)]

/-- Closed witness for C8 at concrete malformed and well-formed inputs. -/
theorem c8_eager_validation_witness :
    getFrequency (Sum.inr [PyNum.f (5 / 2)]) = none ∧
    getWaveLength (Sum.inr [PyNum.i (-1)]) = none ∧
    getRange [PyNum.i 0] = none ∧
    (formatCoords [Sum.inl 3, Sum.inr [1, 2]]).length = 2 := by
  refine ⟨?_, ?_, ?_, ?_⟩
  · exact (c8_eager_validation.1 [PyNum.f (5 / 2)]).mpr
      ⟨PyNum.f (5 / 2), by simp, Or.inl rfl⟩
  · refine (c8_eager_validation.2.1 [PyNum.i (-1)]).mpr
      ⟨PyNum.i (-1), by simp, Or.inr ?_⟩
    norm_num [PyNum.val]
  · exact (c8_eager_validation.2.2.1 [PyNum.i 0]).mpr (by simp)
  · refine ((c8_eager_validation.2.2.2.2.2.2.2 [Sum.inl 3, Sum.inr [1, 2]] ?_).1)
    intro c hc
    rcases List.mem_cons.mp hc with rfl | hc2
    · simp [toSeq]
    · rcases List.mem_singleton.mp hc2 with rfl
      simp [toSeq]

end NPerlin
